import Mathlib

/-!
# zdjones/short: the URL shortener handler

A shallow embedding of `short.go` (the `Handler` with `Shorten`, `Expand`,
`ServeHTTP`, `Close`, and the constructor `ShortenerHandler`), followed by the
properties of the mapping it maintains.

Go strings are byte sequences.  A Go function returning `(value, error)` becomes
a function returning a pair whose second component is `none` for a `nil` error
and `some msg` for an error with text `msg`.  The handler shares one database
through a pointer; here every method that can change the database returns the
handler that holds the new database.
-/

namespace Short

/-- A Go string: an immutable sequence of bytes. -/
abbrev GoString := List UInt8

/-- The bytes (UTF-8) of a string literal of the source. -/
def str (s : String) : GoString := s.toUTF8.data.toList

/-! ## The key-value store (`github.com/boltdb/bolt`) -/

/-- Modelled from the spec: the single bucket of the key-value store (§4.1;
the code is the imported library `github.com/boltdb/bolt`, not under `src/`):
the persisted `uint64` sequence counter and the `key -> value` records. -/
structure Bucket where
  sequence : Nat
  pairs : List (GoString × GoString)
deriving DecidableEq

/-- Modelled from the spec: the store handle `*bolt.DB` (§4.1): whether it is
open (`Close` clears this) and the content of its one bucket. -/
structure DB where
  opened : Bool
  bucket : Bucket
deriving DecidableEq

/-- Modelled from the spec: bolt's `MaxKeySize`, the largest key in bytes. -/
def MaxKeySize : Nat := 32768

/-- Modelled from the spec: bolt's `MaxValueSize`, the largest value in bytes,
`(1 << 31) - 2`. -/
def MaxValueSize : Nat := 2 ^ 31 - 2

/-- Modelled from the spec: bolt's `maxMapSize`, the largest database file
that bolt maps (the amd64 value, `0xFFFFFFFFFFFF`). -/
def maxMapSize : Nat := 0xFFFFFFFFFFFF

/-- Modelled from the spec: bolt's error texts. -/
def ErrDatabaseNotOpen : GoString := str "database not open"

/-- Modelled from the spec: bolt's `ErrKeyRequired`. -/
def ErrKeyRequired : GoString := str "key required"

/-- Modelled from the spec: bolt's `ErrKeyTooLarge`. -/
def ErrKeyTooLarge : GoString := str "key too large"

/-- Modelled from the spec: bolt's `ErrValueTooLarge`. -/
def ErrValueTooLarge : GoString := str "value too large"

/-- Modelled from the spec: the error of a commit that would grow the file
past `maxMapSize`. -/
def ErrMmapTooLarge : GoString := str "mmap allocate error: mmap too large"

/-- Modelled from the spec: `NextSequence() -> uint64` (§4.1).  In bolt it is
`b.bucket.sequence++` on a `uint64`, which wraps at `2^64`, followed by the
return of the new value. -/
def Bucket.NextSequence (b : Bucket) : Nat × Bucket :=
  let s := (b.sequence + 1) % 2 ^ 64
  (s, { b with sequence := s })

/-- Modelled from the spec: `Get(key) -> value | absent` (§4.1): the value
stored under `key`, or `none` (Go's `nil`) when the key is unknown. -/
def Bucket.Get (b : Bucket) (key : GoString) : Option GoString :=
  b.pairs.lookup key

/-- Modelled from the spec: `Put(key, value)` (§4.1): inserts the record, or
overwrites the record of an existing key.  As in bolt it refuses an empty key,
a key above `MaxKeySize` and a value above `MaxValueSize`. -/
def Bucket.Put (b : Bucket) (key value : GoString) : Bucket × Option GoString :=
  if key.length = 0 then (b, some ErrKeyRequired)
  else if key.length > MaxKeySize then (b, some ErrKeyTooLarge)
  else if value.length > MaxValueSize then (b, some ErrValueTooLarge)
  else ({ b with pairs := (key, value) :: b.pairs.filter (fun p => p.1 ≠ key) }, none)

/-- The number of key and value bytes a bucket holds.  Every one of them lies
in the database file, so the file is at least this large. -/
def Bucket.dataSize (b : Bucket) : Nat :=
  (b.pairs.map (fun p => p.1.length + p.2.length)).sum

/-- Modelled from the spec: `DB.Update`, one atomic write transaction (§4.1).
On a closed database it fails without running `fn`.  When `fn` returns an error the
transaction is rolled back: the database keeps its content, counter included.
Otherwise the transaction commits, unless the file would have to grow past
`maxMapSize`, which fails the commit and rolls back as well.  `a0` holds the
variables `fn` captures, as they are before the call; the first component of
the result is their value after it. -/
def DB.Update {α : Type} (db : DB) (fn : Bucket → α × Bucket × Option GoString) (a0 : α) :
    α × DB × Option GoString :=
  if db.opened = false then (a0, db, some ErrDatabaseNotOpen)
  else
    match fn db.bucket with
    | (a, _, some e) => (a, db, some e)
    | (a, b, none) =>
      if b.dataSize > maxMapSize then (a, db, some ErrMmapTooLarge)
      else (a, { db with bucket := b }, none)

/-- Modelled from the spec: `DB.View`, one read transaction (§4.1).  On a
closed database it fails without running `fn`. -/
def DB.View {α : Type} (db : DB) (fn : Bucket → α × Option GoString) (a0 : α) :
    α × Option GoString :=
  if db.opened = false then (a0, some ErrDatabaseNotOpen)
  else fn db.bucket

/-- Modelled from the spec: `Close()` (§4.1): the database is no longer open;
its content stays in the file. -/
def DB.Close (db : DB) : DB := { db with opened := false }

/-- A store as `initDB` leaves it when the file did not exist: open, counter
zero, no record. -/
def freshDB : DB := { opened := true, bucket := { sequence := 0, pairs := [] } }

/-! ## `strconv.FormatUint` and `strings.Contains` -/

/-- The digit table of `strconv`. -/
def digits : GoString := str "0123456789abcdefghijklmnopqrstuvwxyz"

/-- The loop of `strconv.formatBits` for a base that is not a power of two:
while `u >= b`, emit `digits[u - (u / b) * b]` in front and continue with
`u / b`; at the end emit `digits[u]`.  `fuel` bounds the iterations. -/
def formatBits (b : Nat) : Nat → Nat → GoString → GoString
  | 0, u, a => digits.getD u 0 :: a
  | fuel + 1, u, a =>
    if u ≥ b then formatBits b fuel (u / b) (digits.getD (u - (u / b) * b) 0 :: a)
    else digits.getD u 0 :: a

/-- `strconv.FormatUint(i, base)` for a `uint64` `i`.  The buffer of
`formatBits` has 65 bytes, one per iteration at most. -/
def FormatUint (i : Nat) (base : Nat) : GoString := formatBits base 64 i []

/-- `strings.Contains(s, substr)`: `substr` occurs in `s` at some offset. -/
def Contains (s substr : GoString) : Bool :=
  s.tails.any (fun t => t.take substr.length == substr)

/-! ## The handler -/

/-- The `Handler` of `short.go`. -/
structure Handler where
  shortBase : GoString
  db : DB
deriving DecidableEq

/-- `Handler.Close`. -/
def Handler.Close (h : Handler) : Handler := { h with db := h.db.Close }

/-- `Handler.Shorten`: in one `Update`, take the next sequence number, format
it in base 36 and `Put` `key -> long`; the short URL is `shortBase + key`.
Returns `(short, err)` and the handler after the call. -/
def Handler.Shorten (h : Handler) (long : GoString) : (GoString × Option GoString) × Handler :=
  match h.db.Update (fun b =>
      let (seq, b1) := b.NextSequence
      let key := FormatUint seq 36
      (key, b1.Put key long)) [] with
  | (_, db, some e) =>
    (([], some (str "Shorten from " ++ long ++ str ": " ++ e)), { h with db := db })
  | (key, db, none) => ((h.shortBase ++ key, none), { h with db := db })

/-- `Handler.Expand`: reject a short URL that is not longer than `shortBase`
or does not start with it; otherwise look the rest up in the bucket.  Returns
`(long, err)`. -/
def Handler.Expand (h : Handler) (short : GoString) : GoString × Option GoString :=
  if short.length ≤ h.shortBase.length ∨ short.take h.shortBase.length ≠ h.shortBase then
    ([], some (str "Bad short URL, " ++ short ++ str " (base=" ++ h.shortBase ++ str ")"))
  else
    let key := short.drop h.shortBase.length
    match h.db.View (fun b => ((b.Get key).getD [], none)) [] with
    | (long, some e) => (long, some (str "db error, Expand from " ++ short ++ str ": " ++ e))
    | (long, none) => (long, none)

/-- The request as `ServeHTTP` reads it: the method, the value of the query
parameter `short` (`r.URL.Query().Get("short")`, empty when absent) and the
result of `ioutil.ReadAll(r.Body)`. -/
structure Request where
  Method : GoString
  short : GoString
  Body : GoString × Option GoString

/-- What `ServeHTTP` does to the `ResponseWriter`: the one `net/http` call it
makes. -/
inductive Reply where
  /-- `http.Error(w, msg, code)` -/
  | Error (msg : GoString) (code : Nat)
  /-- `http.NotFound(w, r)` -/
  | NotFound
  /-- `http.Redirect(w, r, url, code)` -/
  | Redirect (url : GoString) (code : Nat)
  /-- `io.WriteString(w, s)` with no status set before. -/
  | WriteString (s : GoString)
deriving DecidableEq

/-- The status code of the response. -/
def Reply.StatusCode : Reply → Nat
  | .Error _ code => code
  | .NotFound => 404
  | .Redirect _ code => code
  | .WriteString _ => 200

/-- `path.Split(path)`, first result: the path up to and including its last
slash (empty when it has none). -/
def pathSplitDir (path : GoString) : GoString :=
  (path.reverse.dropWhile (fun c => c ≠ 47)).reverse

/-- The URL that `http.Redirect(w, r, url, code)` puts in the header, before
escaping.  A `url` that parses with no scheme and no host is relative: unless it
starts with a slash it is put behind the directory of the request path (`/` when
that path is empty), then its part before the first `?` is cleaned with
`path.Clean`, keeping a trailing slash.  Any other `url` stays as it is.
`relative url` stands for "`url.Parse(url)` succeeds with empty `Scheme` and
empty `Host`", `pathClean` for `path.Clean`, `oldpath` for `r.URL.Path`
(`net/url` and `path` are not part of the repository). -/
def redirectURL (relative : GoString → Bool) (pathClean : GoString → GoString)
    (oldpath url : GoString) : GoString :=
  if relative url then
    let oldpath1 := if oldpath = [] then str "/" else oldpath
    let url1 := if url = [] ∨ url.head? ≠ some 47 then pathSplitDir oldpath1 ++ url else url
    let query := url1.dropWhile (fun c => c ≠ 63)
    let url2 := url1.takeWhile (fun c => c ≠ 63)
    let url3 := pathClean url2
    let url4 := if str "/" <:+ url2 ∧ ¬ str "/" <:+ url3 then url3 ++ str "/" else url3
    url4 ++ query
  else url

/-- The function `hexEscapeNonASCII` of `net/http`: every byte from `0x80` up is
replaced by `%` and the byte in lowercase hexadecimal
(`strconv.AppendInt(b, int64(s[i]), 16)`). -/
def hexEscapeNonASCII : GoString → GoString
  | [] => []
  | c :: s =>
    if c ≥ 128 then (37 :: FormatUint c.toNat 16) ++ hexEscapeNonASCII s
    else c :: hexEscapeNonASCII s

/-- The `Location` header of the response, if it has one: only
`http.Redirect` sets it, to `hexEscapeNonASCII` of the URL it derives from its
argument and the request path (see `redirectURL` for the parameters). -/
def Reply.Location (relative : GoString → Bool) (pathClean : GoString → GoString)
    (oldpath : GoString) : Reply → Option GoString
  | .Redirect url _ => some (hexEscapeNonASCII (redirectURL relative pathClean oldpath url))
  | _ => none

/-- `http.MethodGet`. -/
def MethodGet : GoString := str "GET"

/-- `http.MethodHead`. -/
def MethodHead : GoString := str "HEAD"

/-- `http.MethodPost`. -/
def MethodPost : GoString := str "POST"

/-- `Handler.ServeHTTP`.  `urlParse raw` stands for `url.Parse(raw)` followed by
`String()` on the parsed URL: the error text, or the canonical string form
(`net/url` is not part of the repository). -/
def Handler.ServeHTTP (urlParse : GoString → Except GoString GoString) (h : Handler)
    (r : Request) : Reply × Handler :=
  if r.Method = MethodGet ∨ r.Method = MethodHead then
    match h.Expand r.short with
    | (_, some e) =>
      if Contains e (str "Bad short URL") then (.Error e 400, h)
      else (.Error e 500, h)
    | (long, none) =>
      if long.length < 1 then (.NotFound, h)
      else (.Redirect long 303, h)
  else if r.Method = MethodPost then
    match r.Body with
    | (_, some e) => (.Error e 500, h)
    | (raw, none) =>
      match urlParse raw with
      | .error e => (.Error e 400, h)
      | .ok longu =>
        match h.Shorten longu with
        | ((_, some e), h1) => (.Error e 500, h1)
        | ((short, none), h1) => (.WriteString short, h1)
  else (.Error (str "Method Not Allowed") 405, h)

/-- The constant `shortenerBucket`: the name of the one bucket. -/
def shortenerBucket : GoString := str "longs"

/-- `initDB`: open the database file and make sure the bucket exists.
`boltOpen` stands for `bolt.Open` on the file system at hand; the one bucket of
the model always exists, so `CreateBucketIfNotExists` changes nothing. -/
def initDB (boltOpen : GoString → Except GoString DB) (dbfile _bucket : GoString) :
    Except GoString DB :=
  match boltOpen dbfile with
  | .error e => .error (str "initDB open (" ++ dbfile ++ str "): " ++ e)
  | .ok db =>
    match db.Update (fun b => ((), b, none)) () with
    | (_, _, some e) => .error (str "initDB create bucket: " ++ e)
    | (_, db1, none) => .ok db1

/-- `ShortenerHandler`.  `parseRequestURI` stands for `url.ParseRequestURI`
(its error, if any).  The result is `none` when the code panics (the slice
`shortBase[len(shortBase)-1:]` of an empty `shortBase`), otherwise the error
or the new handler. -/
def ShortenerHandler (parseRequestURI : GoString → Option GoString)
    (boltOpen : GoString → Except GoString DB) (shortBase dbfile : GoString) :
    Option (Except GoString Handler) :=
  match parseRequestURI shortBase with
  | some e => some (.error (str "Invalid shortBase (" ++ shortBase ++ str "): " ++ e))
  | none =>
    if shortBase.length = 0 then none
    else
      let shortBase1 :=
        if shortBase.drop (shortBase.length - 1) ≠ str "/" then shortBase ++ str "/"
        else shortBase
      match initDB boltOpen dbfile shortenerBucket with
      | .error e => some (.error (str "ShortenerHandler initDB: " ++ e))
      | .ok db => some (.ok { shortBase := shortBase1, db := db })

/-! ## Definitions used to state the properties -/

/-- One base-36 digit in the words of the spec: `0`-`9`, then lowercase
`a`-`z`. -/
def base36Digit (d : Nat) : UInt8 :=
  if d < 10 then UInt8.ofNat (48 + d) else UInt8.ofNat (97 + (d - 10))

/-- The base-36 encoding in the words of the spec: the digits of `n`, most
significant first, with no leading zero; zero is the single digit `0`. -/
def base36 (n : Nat) : GoString :=
  if n = 0 then [base36Digit 0] else (Nat.digits 36 n).reverse.map base36Digit

/-- The value of a base-36 digit: its position in the digit table. -/
def base36Value (c : UInt8) : Nat := digits.indexOf c

/-- The number a base-36 string denotes. -/
def base36Decode (s : GoString) : Nat := Nat.ofDigits 36 (s.map base36Value).reverse

/-- The key that the next `Shorten` on this bucket mints. -/
def nextKey (b : Bucket) : GoString := FormatUint ((b.sequence + 1) % 2 ^ 64) 36

/-- The bucket after the transaction of a `Shorten` that commits. -/
def putNext (b : Bucket) (long : GoString) : Bucket :=
  { sequence := (b.sequence + 1) % 2 ^ 64
    pairs := (nextKey b, long) :: b.pairs.filter (fun p => p.1 ≠ nextKey b) }

/-- The condition under which `Shorten` succeeds: the database is open, the
value is not too large and the commit stays within the file size limit. -/
def canShorten (h : Handler) (long : GoString) : Prop :=
  h.db.opened = true ∧ long.length ≤ MaxValueSize ∧
    (putNext h.db.bucket long).dataSize ≤ maxMapSize

instance (h : Handler) (long : GoString) : Decidable (canShorten h long) := by
  unfold canShorten; infer_instance

/-- The text of the error `Expand` returns for a short URL it rejects. -/
def errBadShortURL (h : Handler) (short : GoString) : GoString :=
  str "Bad short URL, " ++ short ++ str " (base=" ++ h.shortBase ++ str ")"

/-- The text of the error `Expand` returns when the read transaction fails. -/
def errExpandDB (short e : GoString) : GoString :=
  str "db error, Expand from " ++ short ++ str ": " ++ e

/-- Successive `Shorten` calls on one store, each on the state the call before
it left: the results in call order, and the handler after the last call. -/
def shortenAll (h : Handler) : List GoString → List (GoString × Option GoString) × Handler
  | [] => ([], h)
  | long :: rest =>
    ((h.Shorten long).1 :: (shortenAll (h.Shorten long).2 rest).1,
      (shortenAll (h.Shorten long).2 rest).2)

/-- The short URLs returned by the calls that succeeded, in call order. -/
def successes (rs : List (GoString × Option GoString)) : List GoString :=
  (rs.filter (fun r => r.2.isNone)).map Prod.fst

/-- The invariant behind uniqueness.  `ks` are the keys minted so far on the
store of `h`, the latest first: they are pairwise distinct, each has a record,
the `i`-th latest is the encoding of the counter minus `i` (modulo `2^64`), and
there are at most `maxMapSize` of them. -/
def Minted (h : Handler) (ks : List GoString) : Prop :=
  ks.Nodup ∧ (∀ k ∈ ks, k ∈ h.db.bucket.pairs.map Prod.fst) ∧
    (∀ k ∈ ks, ∃ i, i < ks.length ∧
      k = FormatUint ((h.db.bucket.sequence + 2 ^ 64 - i) % 2 ^ 64) 36) ∧
    ks.length ≤ maxMapSize

/-- A call on the mapping of a handler. -/
inductive Call where
  | Shorten (long : GoString)
  | Expand (short : GoString)

/-- The handler after one call: `Shorten` leaves the handler it returns,
`Expand` only reads. -/
def Handler.after (h : Handler) : Call → Handler
  | .Shorten long => (h.Shorten long).2
  | .Expand _ => h

/-- The handler after a sequence of calls, made one after the other. -/
def Handler.afterAll (h : Handler) (cs : List Call) : Handler := cs.foldl Handler.after h

/-- The invariant of a store that started fresh and saw only `Shorten` and
`Expand`: it is open, the counter equals the number of records, every key is
the encoding of a number between 1 and the counter, and the data fit the file
size limit. -/
def FromFresh (h : Handler) : Prop :=
  h.db.opened = true ∧ h.db.bucket.sequence = h.db.bucket.pairs.length ∧
    (∀ p ∈ h.db.bucket.pairs, ∃ i, 1 ≤ i ∧ i ≤ h.db.bucket.sequence ∧ p.1 = FormatUint i 36) ∧
    h.db.bucket.dataSize ≤ maxMapSize

/-- The string ends in exactly one trailing slash: it ends in `/` and not in
`//`. -/
def endsInOneSlash (s : GoString) : Prop := str "/" <:+ s ∧ ¬ str "//" <:+ s

instance (s : GoString) : Decidable (endsInOneSlash s) := by
  unfold endsInOneSlash; infer_instance

/-! # Theorems -/

/-! ## Base-36 formatting -/

theorem digits_getD (d : Nat) (hd : d < 36) : digits.getD d 0 = base36Digit d := by
  revert d; decide

theorem base36Value_digit (d : Nat) (hd : d < 36) : base36Value (base36Digit d) = d := by
  revert d; decide

theorem base36_of_lt (u : Nat) (hu : u < 36) : base36 u = [base36Digit u] := by
  unfold base36
  split
  · subst_vars; rfl
  · rw [Nat.digits_of_lt 36 u ‹_› hu]; rfl

theorem base36_of_ge (u : Nat) (hu : 36 ≤ u) :
    base36 u = base36 (u / 36) ++ [base36Digit (u % 36)] := by
  have h1 : u ≠ 0 := by omega
  have h2 : u / 36 ≠ 0 := by omega
  unfold base36
  rw [if_neg h1, if_neg h2, Nat.digits_def' (by norm_num) (by omega)]
  simp

theorem formatBits_eq (fuel : Nat) : ∀ (u : Nat) (a : GoString), u < 36 ^ (fuel + 1) →
    formatBits 36 fuel u a = base36 u ++ a := by
  induction fuel with
  | zero =>
    intro u a hu
    have hu36 : u < 36 := by simpa using hu
    show digits.getD u 0 :: a = base36 u ++ a
    rw [digits_getD u hu36, base36_of_lt u hu36]
    rfl
  | succ n ih =>
    intro u a hu
    unfold formatBits
    split
    · rename_i hge
      have hdiv : u / 36 < 36 ^ (n + 1) := by
        rw [Nat.div_lt_iff_lt_mul (by norm_num)]
        calc u < 36 ^ (n + 1 + 1) := hu
          _ = 36 ^ (n + 1) * 36 := by ring
      have hmod : u - u / 36 * 36 = u % 36 := by omega
      rw [ih _ _ hdiv, hmod, base36_of_ge u hge, digits_getD _ (Nat.mod_lt _ (by norm_num))]
      simp
    · rename_i hlt
      have hu36 : u < 36 := by omega
      rw [digits_getD u hu36, base36_of_lt u hu36]
      rfl

theorem FormatUint_eq_base36 (n : Nat) (hn : n < 2 ^ 64) : FormatUint n 36 = base36 n := by
  have h : n < 36 ^ (64 + 1) := lt_trans hn (by norm_num)
  simp [FormatUint, formatBits_eq 64 n [] h]

theorem base36Decode_base36 (n : Nat) : base36Decode (base36 n) = n := by
  unfold base36Decode base36
  split
  · subst_vars; decide
  · have hmap : ((Nat.digits 36 n).reverse.map base36Digit).map base36Value
        = (Nat.digits 36 n).reverse := by
      rw [List.map_map]
      conv_rhs => rw [← List.map_id (Nat.digits 36 n).reverse]
      apply List.map_congr_left
      intro d hd
      have : d < 36 := Nat.digits_lt_base (by norm_num) (List.mem_reverse.mp hd)
      simp [base36Value_digit d this]
    rw [hmap, List.reverse_reverse, Nat.ofDigits_digits]

theorem base36_injective : Function.Injective base36 :=
  Function.LeftInverse.injective base36Decode_base36

theorem base36_ne_nil (n : Nat) : base36 n ≠ [] := by
  unfold base36
  split
  · simp
  · rename_i h
    simp [Nat.digits_ne_nil_iff_ne_zero, h]

theorem formatBits_length (b fuel : Nat) : ∀ (u : Nat) (a : GoString),
    a.length < (formatBits b fuel u a).length ∧
      (formatBits b fuel u a).length ≤ a.length + fuel + 1 := by
  induction fuel with
  | zero => intro u a; simp [formatBits]
  | succ n ih =>
    intro u a
    unfold formatBits
    split
    · have := ih (u / b) (digits.getD (u - (u / b) * b) 0 :: a)
      simp only [List.length_cons] at this
      omega
    · simp

theorem FormatUint_length (i b : Nat) :
    0 < (FormatUint i b).length ∧ (FormatUint i b).length ≤ 65 := by
  have := formatBits_length b 64 i []
  simp only [List.length_nil] at this
  unfold FormatUint
  omega

theorem Shorten_ok (h : Handler) (long : GoString) (hc : canShorten h long) :
    h.Shorten long = ((h.shortBase ++ nextKey h.db.bucket, none),
      { h with db := { h.db with bucket := putNext h.db.bucket long } }) := by
  obtain ⟨ho, hv, hm⟩ := hc
  have hk := FormatUint_length ((h.db.bucket.sequence + 1) % 2 ^ 64) 36
  have hk1 : (FormatUint ((h.db.bucket.sequence + 1) % 2 ^ 64) 36).length ≠ 0 := by omega
  have hk2 : ¬ (FormatUint ((h.db.bucket.sequence + 1) % 2 ^ 64) 36).length > MaxKeySize := by
    unfold MaxKeySize; omega
  have hm' : ¬ (putNext h.db.bucket long).dataSize > maxMapSize := by omega
  unfold putNext nextKey at hm'
  simp only [Handler.Shorten, DB.Update, Bucket.NextSequence, Bucket.Put, ho, hk1, hk2,
    Nat.not_lt.mpr hv, gt_iff_lt, if_false, Bool.true_eq_false]
  simp only [gt_iff_lt] at hm'
  rw [if_neg hm']
  rfl

theorem Shorten_fail (h : Handler) (long : GoString) (hc : ¬ canShorten h long) :
    (h.Shorten long).1.1 = [] ∧ (h.Shorten long).1.2 ≠ none ∧ (h.Shorten long).2 = h := by
  have hk := FormatUint_length ((h.db.bucket.sequence + 1) % 2 ^ 64) 36
  have hk1 : (FormatUint ((h.db.bucket.sequence + 1) % 2 ^ 64) 36).length ≠ 0 := by omega
  have hk2 : ¬ (FormatUint ((h.db.bucket.sequence + 1) % 2 ^ 64) 36).length > MaxKeySize := by
    unfold MaxKeySize; omega
  by_cases ho : h.db.opened = true
  · by_cases hv : long.length ≤ MaxValueSize
    · have hm : (putNext h.db.bucket long).dataSize > maxMapSize := by
        by_contra hcon
        exact hc ⟨ho, hv, by omega⟩
      unfold putNext nextKey at hm
      simp only [Handler.Shorten, DB.Update, Bucket.NextSequence, Bucket.Put, ho, hk1, hk2,
        Nat.not_lt.mpr hv, gt_iff_lt, if_false, Bool.true_eq_false]
      simp only [gt_iff_lt] at hm
      rw [if_pos hm]
      simp
    · simp only [Handler.Shorten, DB.Update, Bucket.NextSequence, Bucket.Put, ho, hk1, hk2,
        Nat.lt_of_not_le hv, gt_iff_lt, if_false, if_true, Bool.true_eq_false]
      simp
  · have ho' : h.db.opened = false := by simpa using ho
    simp [Handler.Shorten, DB.Update, ho']

theorem Shorten_succeeds_iff (h : Handler) (long : GoString) :
    (h.Shorten long).1.2 = none ↔ canShorten h long := by
  constructor
  · intro hs
    by_contra hc
    exact (Shorten_fail h long hc).2.1 hs
  · intro hc
    rw [Shorten_ok h long hc]


theorem Expand_bad (h : Handler) (short : GoString)
    (hb : short.length ≤ h.shortBase.length ∨ short.take h.shortBase.length ≠ h.shortBase) :
    h.Expand short = ([], some (errBadShortURL h short)) := by
  unfold Handler.Expand errBadShortURL
  rw [if_pos hb]

theorem Expand_good_open (h : Handler) (short : GoString)
    (hb : ¬ (short.length ≤ h.shortBase.length ∨ short.take h.shortBase.length ≠ h.shortBase))
    (ho : h.db.opened = true) :
    h.Expand short = ((h.db.bucket.Get (short.drop h.shortBase.length)).getD [], none) := by
  unfold Handler.Expand
  rw [if_neg hb]
  simp [DB.View, ho]

theorem Expand_good_closed (h : Handler) (short : GoString)
    (hb : ¬ (short.length ≤ h.shortBase.length ∨ short.take h.shortBase.length ≠ h.shortBase))
    (ho : h.db.opened = false) :
    h.Expand short = ([], some (errExpandDB short ErrDatabaseNotOpen)) := by
  unfold Handler.Expand errExpandDB
  rw [if_neg hb]
  simp [DB.View, ho]

theorem errExpandDB_ne_errBadShortURL (h : Handler) (short s e : GoString) :
    errExpandDB s e ≠ errBadShortURL h short := by
  intro heq
  have h1 : (errExpandDB s e).head? = some 100 := rfl
  have h2 : (errBadShortURL h short).head? = some 66 := rfl
  rw [heq, h2] at h1
  exact absurd h1 (by decide)

theorem take_eq_iff_isPrefix (base short : GoString) :
    short.take base.length = base ↔ base <+: short := by
  constructor
  · intro h
    have := List.take_append_drop base.length short
    rw [h] at this
    exact ⟨_, this⟩
  · rintro ⟨t, rfl⟩
    simp

theorem Get_putNext_self (b : Bucket) (long : GoString) :
    (putNext b long).Get (nextKey b) = some long := by
  simp [putNext, Bucket.Get, List.lookup]

theorem lookup_filter_ne (key k : GoString) : ∀ (ps : List (GoString × GoString)), k ≠ key →
    (ps.filter (fun p => p.1 ≠ key)).lookup k = ps.lookup k := by
  intro ps hk
  induction ps with
  | nil => rfl
  | cons p ps ih =>
    obtain ⟨pk, pv⟩ := p
    by_cases hp : pk = key
    · subst hp
      have hkp : (k == pk) = false := by simpa using hk
      rw [List.filter_cons_of_neg (by simp), ih]
      simp [List.lookup, hkp]
    · rw [List.filter_cons_of_pos (by simpa using hp)]
      by_cases hkp : k = pk
      · subst hkp
        simp [List.lookup]
      · have hkp' : (k == pk) = false := by simpa using hkp
        simp only [List.lookup, hkp', ih]

theorem Get_putNext_ne (b : Bucket) (long k : GoString) (hk : k ≠ nextKey b) :
    (putNext b long).Get k = b.Get k := by
  have : (k == nextKey b) = false := by simpa using hk
  simp only [putNext, Bucket.Get, List.lookup, this]
  exact lookup_filter_ne _ _ _ hk

theorem nextKey_length_pos (b : Bucket) : 0 < (nextKey b).length :=
  (FormatUint_length _ _).1

theorem Expand_after_Shorten (h h1 : Handler) (L S : GoString)
    (hs : h.Shorten L = ((S, none), h1)) : h1.Expand S = (L, none) := by
  have hc : canShorten h L := (Shorten_succeeds_iff h L).mp (by rw [hs])
  rw [Shorten_ok h L hc] at hs
  simp only [Prod.mk.injEq, and_true] at hs
  obtain ⟨hS, hh1⟩ := hs
  subst hS hh1
  have hpos := nextKey_length_pos h.db.bucket
  rw [Expand_good_open]
  · simp [Get_putNext_self]
  · rw [not_or, not_not]
    refine ⟨?_, by simp⟩
    show ¬ (h.shortBase ++ nextKey h.db.bucket).length ≤ h.shortBase.length
    rw [List.length_append]
    omega
  · exact hc.1

/-! ## Round trip -/

/-- C1 (round trip).  If `Shorten(L)` succeeds and returns the short URL `S`,
then `Expand(S)`, called next on the store that `Shorten` left, returns `L`
with no error. -/
theorem Expand_Shorten_roundtrip (h h1 : Handler) (L S : GoString)
    (hs : h.Shorten L = ((S, none), h1)) : h1.Expand S = (L, none) := by
  -- a successful `Shorten` committed: the store is open and holds `key -> L`
  have hc : canShorten h L := (Shorten_succeeds_iff h L).mp (by rw [hs])
  rw [Shorten_ok h L hc] at hs
  simp only [Prod.mk.injEq, and_true] at hs
  obtain ⟨hS, hh1⟩ := hs
  subst hS hh1
  -- the key is not empty, so the short URL passes the check of `Expand`
  have hpos := nextKey_length_pos h.db.bucket
  have hcheck : ¬ ((h.shortBase ++ nextKey h.db.bucket).length ≤ h.shortBase.length ∨
      (h.shortBase ++ nextKey h.db.bucket).take h.shortBase.length ≠ h.shortBase) := by
    rw [not_or, not_not]
    refine ⟨?_, by simp⟩
    rw [List.length_append]
    omega
  -- and the lookup finds the record just written
  have hx := Expand_good_open
    { h with db := { h.db with bucket := putNext h.db.bucket L } }
    (h.shortBase ++ nextKey h.db.bucket) hcheck hc.1
  rw [hx]
  show (((putNext h.db.bucket L).Get
    ((h.shortBase ++ nextKey h.db.bucket).drop h.shortBase.length)).getD [], none) = (L, none)
  rw [List.drop_left' rfl, Get_putNext_self]
  rfl

/-- C1 at the first test case: on a fresh store with base `http://te.st/`,
`Shorten` of `http://testlong.com/x` succeeds, and `Expand` of the short URL it
returned gives the long URL back. -/
theorem Expand_Shorten_roundtrip_witness :
    Handler.Shorten ⟨str "http://te.st/", freshDB⟩ (str "http://testlong.com/x")
        = ((str "http://te.st/1", none),
          ⟨str "http://te.st/", ⟨true, ⟨1, [(str "1", str "http://testlong.com/x")]⟩⟩⟩) ∧
      Handler.Expand
          ⟨str "http://te.st/", ⟨true, ⟨1, [(str "1", str "http://testlong.com/x")]⟩⟩⟩
          (str "http://te.st/1")
        = (str "http://testlong.com/x", none) :=
  ⟨by decide,
    Expand_Shorten_roundtrip ⟨str "http://te.st/", freshDB⟩ _ (str "http://testlong.com/x")
      (str "http://te.st/1") (by decide)⟩

/-! ## Expand -/

/-- C4 (Expand rejects exactly the bad short URLs).  `Expand` returns the
"Bad short URL" error if and only if `short` is not strictly longer than
`shortBase` or `shortBase` is not a prefix of `short`, byte for byte; in that
case the long URL it returns is empty and the result does not depend on the
store (the store is not read). -/
theorem Expand_rejects_exactly (h : Handler) (short : GoString) :
    ((h.Expand short).2 = some (errBadShortURL h short) ↔
        (¬ h.shortBase.length < short.length ∨ ¬ h.shortBase <+: short)) ∧
      ((¬ h.shortBase.length < short.length ∨ ¬ h.shortBase <+: short) →
        (h.Expand short).1 = [] ∧
          ∀ db : DB, Handler.Expand { h with db := db } short = h.Expand short) := by
  have hiff : (¬ h.shortBase.length < short.length ∨ ¬ h.shortBase <+: short) ↔
      (short.length ≤ h.shortBase.length ∨ short.take h.shortBase.length ≠ h.shortBase) := by
    rw [← take_eq_iff_isPrefix, Nat.not_lt]
  rw [hiff]
  constructor
  · constructor
    · intro he
      by_contra hb
      cases ho : h.db.opened with
      | true =>
        rw [Expand_good_open h short hb ho] at he
        exact absurd he (by simp)
      | false =>
        rw [Expand_good_closed h short hb ho] at he
        exact errExpandDB_ne_errBadShortURL h short _ _ (Option.some.inj he)
    · intro hb
      rw [Expand_bad h short hb]
  · intro hb
    refine ⟨by rw [Expand_bad h short hb], fun db => ?_⟩
    rw [Expand_bad h short hb]
    exact Expand_bad { h with db := db } short hb

/-- C4 at the two rejected short URLs of the tests, `http://d` (too short) and
`http://wo.mp/2` (wrong base), with base `http://te.st/`. -/
theorem Expand_rejects_exactly_witness :
    (¬ (str "http://te.st/").length < (str "http://d").length
        ∨ ¬ str "http://te.st/" <+: str "http://d") ∧
      (¬ (str "http://te.st/").length < (str "http://wo.mp/2").length
        ∨ ¬ str "http://te.st/" <+: str "http://wo.mp/2") ∧
      (Handler.Expand ⟨str "http://te.st/", freshDB⟩ (str "http://d")).1 = [] ∧
      (Handler.Expand ⟨str "http://te.st/", freshDB⟩ (str "http://wo.mp/2")).2
        = some (errBadShortURL ⟨str "http://te.st/", freshDB⟩ (str "http://wo.mp/2")) :=
  ⟨by decide, by decide,
    ((Expand_rejects_exactly ⟨str "http://te.st/", freshDB⟩ (str "http://d")).2
      (by decide)).1,
    (Expand_rejects_exactly ⟨str "http://te.st/", freshDB⟩ (str "http://wo.mp/2")).1.mpr
      (by decide)⟩

/-- C10, amended (unknown key is not an error).  On a handler whose store is
open, for a short URL that is strictly longer than `shortBase` and begins with
it: if the key after the prefix has no record, `Expand` returns the empty long
URL with no error, and otherwise it returns exactly the value stored under
that key, with no error. -/
theorem Expand_unknown_key_open (h : Handler) (short : GoString)
    (ho : h.db.opened = true) (hlen : h.shortBase.length < short.length)
    (hpre : h.shortBase <+: short) :
    (h.db.bucket.Get (short.drop h.shortBase.length) = none → h.Expand short = ([], none)) ∧
      (∀ v, h.db.bucket.Get (short.drop h.shortBase.length) = some v →
        h.Expand short = (v, none)) := by
  have hb : ¬ (short.length ≤ h.shortBase.length ∨
      short.take h.shortBase.length ≠ h.shortBase) := by
    rw [not_or, not_not, take_eq_iff_isPrefix]
    exact ⟨by omega, hpre⟩
  rw [Expand_good_open h short hb ho]
  constructor
  · intro hn
    rw [hn]
    rfl
  · intro v hv
    rw [hv]
    rfl

/-- C10, amended, on an open store holding the keys 1 and 2: the unknown key
`1h1gtj` expands to the empty long URL, the key `2` to its value. -/
theorem Expand_unknown_key_open_witness :
    (Handler.Expand ⟨str "http://te.st/", ⟨true, ⟨2, [(str "2", str "b"), (str "1", str "a")]⟩⟩⟩
        (str "http://te.st/1h1gtj") = ([], none)) ∧
      (Handler.Expand ⟨str "http://te.st/", ⟨true, ⟨2, [(str "2", str "b"), (str "1", str "a")]⟩⟩⟩
        (str "http://te.st/2") = (str "b", none)) :=
  ⟨(Expand_unknown_key_open
      ⟨str "http://te.st/", ⟨true, ⟨2, [(str "2", str "b"), (str "1", str "a")]⟩⟩⟩
      (str "http://te.st/1h1gtj") rfl (by decide) (by decide)).1 (by decide),
    (Expand_unknown_key_open
      ⟨str "http://te.st/", ⟨true, ⟨2, [(str "2", str "b"), (str "1", str "a")]⟩⟩⟩
      (str "http://te.st/2") rfl (by decide) (by decide)).2 (str "b") (by decide)⟩

/-- C10 fails as stated: on a handler whose store has been closed, the short
URL `http://te.st/1h1gtj` is longer than the base `http://te.st/`, begins with
it and its key has no record, yet `Expand` returns an error (the read
transaction fails with "database not open"). -/
theorem Expand_unknown_key_closed_counterexample :
    (str "http://te.st/").length < (str "http://te.st/1h1gtj").length ∧
      str "http://te.st/" <+: str "http://te.st/1h1gtj" ∧
      Bucket.Get ⟨2, [(str "2", str "b"), (str "1", str "a")]⟩ (str "1h1gtj") = none ∧
      Handler.Expand
          (Handler.Close
            ⟨str "http://te.st/", ⟨true, ⟨2, [(str "2", str "b"), (str "1", str "a")]⟩⟩⟩)
          (str "http://te.st/1h1gtj")
        = ([], some (str "db error, Expand from http://te.st/1h1gtj: database not open")) := by
  decide

/-! ## Key minting -/

theorem shortenAll_shortBase (longs : List GoString) : ∀ h : Handler,
    (shortenAll h longs).2.shortBase = h.shortBase := by
  induction longs with
  | nil => intro h; rfl
  | cons l ls ih =>
    intro h
    show (shortenAll (h.Shorten l).2 ls).2.shortBase = h.shortBase
    rw [ih]
    by_cases hc : canShorten h l
    · rw [Shorten_ok h l hc]
    · rw [(Shorten_fail h l hc).2.2]

theorem shortenAll_cons (h : Handler) (l : GoString) (ls : List GoString) :
    shortenAll h (l :: ls) = ((h.Shorten l).1 :: (shortenAll (h.Shorten l).2 ls).1,
      (shortenAll (h.Shorten l).2 ls).2) := rfl

theorem shortenAll_keys (longs : List GoString) : ∀ h : Handler,
    (∀ r ∈ (shortenAll h longs).1, r.2 = none) →
    h.db.bucket.sequence + longs.length < 2 ^ 64 →
    (shortenAll h longs).1 = (List.range longs.length).map
        (fun i => (h.shortBase ++ base36 (h.db.bucket.sequence + (i + 1)), none)) ∧
      (shortenAll h longs).2.db.bucket.sequence = h.db.bucket.sequence + longs.length := by
  induction longs with
  | nil => intro h _ _; exact ⟨rfl, rfl⟩
  | cons l ls ih =>
    intro h hok hno
    simp only [List.length_cons] at hno
    rw [shortenAll_cons] at hok ⊢
    have hfirst : (h.Shorten l).1.2 = none := hok _ (List.mem_cons_self _ _)
    have hc : canShorten h l := (Shorten_succeeds_iff h l).mp hfirst
    have hmod : (h.db.bucket.sequence + 1) % 2 ^ 64 = h.db.bucket.sequence + 1 :=
      Nat.mod_eq_of_lt (by omega)
    have hkey : nextKey h.db.bucket = base36 (h.db.bucket.sequence + 1) := by
      unfold nextKey
      rw [hmod, FormatUint_eq_base36 _ (by omega)]
    have hrest := ih (h.Shorten l).2 (fun r hr => hok r (List.mem_cons_of_mem _ hr))
    have hbase : (h.Shorten l).2.shortBase = h.shortBase := by rw [Shorten_ok h l hc]
    have hseq : (h.Shorten l).2.db.bucket.sequence = h.db.bucket.sequence + 1 := by
      rw [Shorten_ok h l hc]; exact hmod
    have hres : (h.Shorten l).1 = (h.shortBase ++ base36 (h.db.bucket.sequence + 1), none) := by
      rw [Shorten_ok h l hc, hkey]
    rw [hbase, hseq] at hrest
    obtain ⟨h1, h2⟩ := hrest (by omega)
    constructor
    · show (_ :: (shortenAll _ ls).1) = _
      rw [h1, hres, List.length_cons, List.range_succ_eq_map, List.map_cons, List.map_map]
      refine congrArg _ (List.map_congr_left ?_)
      intro i _
      simp only [Function.comp, Nat.succ_eq_add_one]
      rw [show h.db.bucket.sequence + 1 + (i + 1) = h.db.bucket.sequence + (i + 1 + 1) by omega]
    · show (shortenAll _ ls).2.db.bucket.sequence = _
      rw [h2, List.length_cons]
      omega

theorem base36_one : base36 1 = str "1" := by
  rw [← FormatUint_eq_base36 1 (by norm_num)]
  decide

theorem base36_two : base36 2 = str "2" := by
  rw [← FormatUint_eq_base36 2 (by norm_num)]
  decide

/-- C2, amended (key minting).  On a store whose sequence counter is `c`, as
long as the counter stays below `2^64` (`c + k < 2^64`), `k` successive
successful `Shorten` calls return, the `i`-th of them, `shortBase` followed by
the base-36 encoding of `c + i`, and leave the counter at `c + k`; on a store
whose counter is zero the first returns `shortBase + "1"` and the second
`shortBase + "2"`. -/
theorem Shorten_mints_keys (h : Handler) (longs : List GoString)
    (hok : ∀ r ∈ (shortenAll h longs).1, r.2 = none)
    (hno : h.db.bucket.sequence + longs.length < 2 ^ 64) :
    (shortenAll h longs).1 = (List.range longs.length).map
        (fun i => (h.shortBase ++ base36 (h.db.bucket.sequence + (i + 1)), none)) ∧
      (shortenAll h longs).2.db.bucket.sequence = h.db.bucket.sequence + longs.length ∧
      (h.db.bucket.sequence = 0 →
        (∀ r, (shortenAll h longs).1[0]? = some r → r.1 = h.shortBase ++ str "1") ∧
          (∀ r, (shortenAll h longs).1[1]? = some r → r.1 = h.shortBase ++ str "2")) := by
  obtain ⟨h1, h2⟩ := shortenAll_keys longs h hok hno
  refine ⟨h1, h2, fun h0 => ?_⟩
  rw [h1, h0]
  constructor
  · intro r hr
    rw [List.getElem?_map] at hr
    cases hk : (List.range longs.length)[0]? with
    | none => rw [hk] at hr; exact absurd hr (by simp)
    | some i =>
      rw [hk] at hr
      have hi : i = 0 := by
        have := List.getElem?_range (m := 0) (n := longs.length)
        by_cases hlt : 0 < longs.length
        · rw [List.getElem?_range hlt] at hk; exact (Option.some.inj hk).symm
        · rw [List.getElem?_eq_none (by simpa using hlt)] at hk; exact absurd hk (by simp)
      subst hi
      simp only [Option.map_some', Option.some.injEq] at hr
      rw [← hr]
      show h.shortBase ++ base36 (0 + (0 + 1)) = _
      rw [show 0 + (0 + 1) = 1 by rfl, base36_one]
  · intro r hr
    rw [List.getElem?_map] at hr
    cases hk : (List.range longs.length)[1]? with
    | none => rw [hk] at hr; exact absurd hr (by simp)
    | some i =>
      rw [hk] at hr
      have hi : i = 1 := by
        by_cases hlt : 1 < longs.length
        · rw [List.getElem?_range hlt] at hk; exact (Option.some.inj hk).symm
        · rw [List.getElem?_eq_none (by simpa using hlt)] at hk; exact absurd hk (by simp)
      subst hi
      simp only [Option.map_some', Option.some.injEq] at hr
      rw [← hr]
      show h.shortBase ++ base36 (0 + (1 + 1)) = _
      rw [show 0 + (1 + 1) = 2 by rfl, base36_two]

/-- C2, amended, at two successive calls on a fresh store: both succeed and
the counter ends at 2. -/
theorem Shorten_mints_keys_witness :
    (∀ r ∈ (shortenAll ⟨str "http://te.st/", freshDB⟩ [str "http://testlong.com/x",
        str "https://www.google.com/maps"]).1, r.2 = none) ∧
      (shortenAll ⟨str "http://te.st/", freshDB⟩ [str "http://testlong.com/x",
        str "https://www.google.com/maps"]).2.db.bucket.sequence = 0 + 2 :=
  ⟨by decide,
    (Shorten_mints_keys ⟨str "http://te.st/", freshDB⟩ [str "http://testlong.com/x",
      str "https://www.google.com/maps"] (by decide) (by decide)).2.1⟩

/-- C2 fails as stated: on a store whose counter is `c = 2^64 - 1`, one
successful `Shorten` returns `shortBase + "0"` and leaves the counter at `0`,
not the base-36 encoding of `c + 1 = 2^64` and not the counter `c + 1`. -/
theorem Shorten_counter_wraps_counterexample :
    (shortenAll ⟨str "http://te.st/", ⟨true, ⟨2 ^ 64 - 1, []⟩⟩⟩
        [str "http://testlong.com/x"]).1 = [(str "http://te.st/0", none)] ∧
      (shortenAll ⟨str "http://te.st/", ⟨true, ⟨2 ^ 64 - 1, []⟩⟩⟩
        [str "http://testlong.com/x"]).2.db.bucket.sequence = 0 ∧
      str "http://te.st/0" ≠ str "http://te.st/" ++ base36 (2 ^ 64 - 1 + 1) ∧
      (0 : Nat) ≠ 2 ^ 64 - 1 + 1 := by
  refine ⟨by decide, by decide, ?_, by norm_num⟩
  intro heq
  have h0 : str "http://te.st/0" = str "http://te.st/" ++ base36 0 := by
    rw [← FormatUint_eq_base36 0 (by norm_num)]
    decide
  rw [h0] at heq
  have := base36_injective (List.append_cancel_left heq)
  norm_num at this

/-! ## Uniqueness of keys -/

theorem FormatUint_injective (m n : Nat) (hm : m < 2 ^ 64) (hn : n < 2 ^ 64)
    (heq : FormatUint m 36 = FormatUint n 36) : m = n := by
  rw [FormatUint_eq_base36 m hm, FormatUint_eq_base36 n hn] at heq
  exact base36_injective heq

theorem length_nonempty_keys_le_dataSize (ps : List (GoString × GoString)) :
    ((ps.map Prod.fst).filter (fun k => k ≠ [])).length
      ≤ (ps.map (fun p => p.1.length + p.2.length)).sum := by
  induction ps with
  | nil => simp
  | cons p ps ih =>
    simp only [List.map_cons, List.sum_cons]
    by_cases hp : p.1 = []
    · rw [List.filter_cons_of_neg (by simpa using hp)]
      omega
    · rw [List.filter_cons_of_pos (by simpa using hp), List.length_cons]
      have : 0 < p.1.length := List.length_pos.mpr hp
      omega

theorem length_le_dataSize (b : Bucket) (ks : List GoString) (hnd : ks.Nodup)
    (hmem : ∀ k ∈ ks, k ≠ [] ∧ k ∈ b.pairs.map Prod.fst) : ks.length ≤ b.dataSize := by
  have hsub : ks ⊆ (b.pairs.map Prod.fst).filter (fun k => k ≠ []) := by
    intro k hk
    obtain ⟨h1, h2⟩ := hmem k hk
    exact List.mem_filter.mpr ⟨h2, by simpa using h1⟩
  have hle := (List.subperm_of_subset hnd hsub).length_le
  exact le_trans hle (length_nonempty_keys_le_dataSize b.pairs)

theorem maxMapSize_lt : maxMapSize + 1 < 2 ^ 64 := by
  unfold maxMapSize; norm_num

theorem nextKey_not_mem (h : Handler) (ks : List GoString) (hm : Minted h ks) :
    nextKey h.db.bucket ∉ ks := by
  intro hin
  obtain ⟨_, _, hform, hlen⟩ := hm
  obtain ⟨i, hi, hk⟩ := hform _ hin
  have hcap := maxMapSize_lt
  have := FormatUint_injective _ _ (Nat.mod_lt _ (by norm_num)) (Nat.mod_lt _ (by norm_num)) hk
  omega

theorem Minted_step (h : Handler) (ks : List GoString) (l : GoString) (hm : Minted h ks)
    (hc : canShorten h l) : Minted (h.Shorten l).2 (nextKey h.db.bucket :: ks) := by
  have hnot := nextKey_not_mem h ks hm
  obtain ⟨hnd, hmem, hform, hlen⟩ := hm
  rw [Shorten_ok h l hc]
  have hnd' : (nextKey h.db.bucket :: ks).Nodup := List.nodup_cons.mpr ⟨hnot, hnd⟩
  have hmem' : ∀ k ∈ nextKey h.db.bucket :: ks,
      k ∈ (putNext h.db.bucket l).pairs.map Prod.fst := by
    intro k hk
    rcases List.mem_cons.mp hk with rfl | hk
    · simp [putNext]
    · have hne : k ≠ nextKey h.db.bucket := fun he => hnot (he ▸ hk)
      obtain ⟨p, hp, hpk⟩ := List.mem_map.mp (hmem k hk)
      refine List.mem_map.mpr ⟨p, ?_, hpk⟩
      refine List.mem_cons_of_mem _ (List.mem_filter.mpr ⟨hp, ?_⟩)
      simpa [hpk] using hne
  have hform' : ∀ k ∈ nextKey h.db.bucket :: ks, ∃ i, i < (nextKey h.db.bucket :: ks).length ∧
      k = FormatUint (((putNext h.db.bucket l).sequence + 2 ^ 64 - i) % 2 ^ 64) 36 := by
    intro k hk
    have hcap := maxMapSize_lt
    rcases List.mem_cons.mp hk with rfl | hk
    · refine ⟨0, by simp, ?_⟩
      show FormatUint ((h.db.bucket.sequence + 1) % 2 ^ 64) 36
        = FormatUint (((h.db.bucket.sequence + 1) % 2 ^ 64 + 2 ^ 64 - 0) % 2 ^ 64) 36
      exact congrArg (fun n => FormatUint n 36) (by omega)
    · obtain ⟨i, hi, hki⟩ := hform k hk
      refine ⟨i + 1, by simpa using hi, ?_⟩
      rw [hki]
      show FormatUint ((h.db.bucket.sequence + 2 ^ 64 - i) % 2 ^ 64) 36
        = FormatUint (((h.db.bucket.sequence + 1) % 2 ^ 64 + 2 ^ 64 - (i + 1)) % 2 ^ 64) 36
      exact congrArg (fun n => FormatUint n 36) (by omega)
  refine ⟨hnd', hmem', hform', ?_⟩
  have hne : ∀ k ∈ nextKey h.db.bucket :: ks,
      k ≠ [] ∧ k ∈ (putNext h.db.bucket l).pairs.map Prod.fst := by
    intro k hk
    refine ⟨?_, hmem' k hk⟩
    obtain ⟨i, _, hki⟩ := hform' k hk
    rw [hki]
    exact List.ne_nil_of_length_pos (FormatUint_length _ _).1
  exact le_trans (length_le_dataSize _ _ hnd' hne) hc.2.2

theorem successes_cons_ok (s : GoString) (rs : List (GoString × Option GoString)) :
    successes ((s, none) :: rs) = s :: successes rs := rfl

theorem successes_cons_fail (r : GoString × Option GoString)
    (rs : List (GoString × Option GoString)) (hr : r.2 ≠ none) :
    successes (r :: rs) = successes rs := by
  unfold successes
  rw [List.filter_cons_of_neg]
  cases h2 : r.2 with
  | none => exact absurd h2 hr
  | some e => simp

theorem Minted_keys_nodup (longs : List GoString) : ∀ (h : Handler) (ks : List GoString),
    Minted h ks →
    (((successes (shortenAll h longs).1).map (fun s => s.drop h.shortBase.length)).reverse
      ++ ks).Nodup := by
  induction longs with
  | nil => intro h ks hm; simpa [shortenAll, successes] using hm.1
  | cons l ls ih =>
    intro h ks hm
    rw [shortenAll_cons]
    by_cases hc : canShorten h l
    · have hstep := ih _ _ (Minted_step h ks l hm hc)
      rw [Shorten_ok h l hc] at hstep ⊢
      rw [successes_cons_ok, List.map_cons, List.reverse_cons, List.append_assoc]
      simpa using hstep
    · obtain ⟨_, herr, hsame⟩ := Shorten_fail h l hc
      rw [successes_cons_fail _ _ herr, hsame]
      exact ih h ks hm

theorem Minted_nil (h : Handler) : Minted h [] :=
  ⟨List.nodup_nil, by simp, by simp, Nat.zero_le _⟩

/-- C3 (uniqueness).  In every sequence of `Shorten` calls on one store, the
keys returned by the calls that succeed are pairwise distinct, and so are the
short URLs, whatever the long URLs are: a key once assigned is never assigned
again. -/
theorem Shorten_keys_unique (h : Handler) (longs : List GoString) :
    ((successes (shortenAll h longs).1).map (fun s => s.drop h.shortBase.length)).Nodup ∧
      (successes (shortenAll h longs).1).Nodup := by
  have hnd := Minted_keys_nodup longs h [] (Minted_nil h)
  rw [List.append_nil, List.nodup_reverse] at hnd
  exact ⟨hnd, List.Nodup.of_map _ hnd⟩

/-! ## The store is append-only -/

theorem length_le_sum_of_keys_ne_nil (ps : List (GoString × GoString))
    (hne : ∀ p ∈ ps, p.1 ≠ []) :
    ps.length ≤ (ps.map (fun p => p.1.length + p.2.length)).sum := by
  induction ps with
  | nil => simp
  | cons p ps ih =>
    have h1 : 0 < p.1.length := List.length_pos.mpr (hne p (List.mem_cons_self _ _))
    have h2 := ih (fun q hq => hne q (List.mem_cons_of_mem _ hq))
    simp only [List.map_cons, List.sum_cons, List.length_cons]
    omega

theorem FromFresh_fresh (base : GoString) : FromFresh ⟨base, freshDB⟩ :=
  ⟨rfl, rfl, by simp [freshDB], Nat.zero_le _⟩

theorem FromFresh_counter (h : Handler) (hf : FromFresh h) :
    h.db.bucket.sequence ≤ maxMapSize := by
  obtain ⟨_, hseq, hkeys, hsize⟩ := hf
  have hne : ∀ p ∈ h.db.bucket.pairs, p.1 ≠ [] := by
    intro p hp
    obtain ⟨i, _, _, hpi⟩ := hkeys p hp
    rw [hpi]
    exact List.ne_nil_of_length_pos (FormatUint_length _ _).1
  have := length_le_sum_of_keys_ne_nil _ hne
  unfold Bucket.dataSize at hsize
  omega

theorem FromFresh_nextKey (h : Handler) (hf : FromFresh h) :
    (h.db.bucket.sequence + 1) % 2 ^ 64 = h.db.bucket.sequence + 1 ∧
      ∀ p ∈ h.db.bucket.pairs, p.1 ≠ nextKey h.db.bucket := by
  have hc := FromFresh_counter h hf
  have hcap := maxMapSize_lt
  have hmod : (h.db.bucket.sequence + 1) % 2 ^ 64 = h.db.bucket.sequence + 1 :=
    Nat.mod_eq_of_lt (by omega)
  refine ⟨hmod, ?_⟩
  intro p hp heq
  obtain ⟨i, _, hi, hpi⟩ := hf.2.2.1 p hp
  unfold nextKey at heq
  rw [hmod, hpi] at heq
  have := FormatUint_injective _ _ (by omega) (by omega) heq
  omega

theorem putNext_pairs_of_FromFresh (h : Handler) (l : GoString) (hf : FromFresh h) :
    (putNext h.db.bucket l).pairs = (nextKey h.db.bucket, l) :: h.db.bucket.pairs := by
  unfold putNext
  simp only
  rw [List.filter_eq_self.mpr]
  intro p hp
  simpa using (FromFresh_nextKey h hf).2 p hp

theorem FromFresh_Shorten (h : Handler) (l : GoString) (hf : FromFresh h) :
    FromFresh (h.Shorten l).2 := by
  by_cases hc : canShorten h l
  · rw [Shorten_ok h l hc]
    have hmod := (FromFresh_nextKey h hf).1
    have hpairs := putNext_pairs_of_FromFresh h l hf
    refine ⟨hf.1, ?_, ?_, hc.2.2⟩
    · show (putNext h.db.bucket l).sequence = (putNext h.db.bucket l).pairs.length
      rw [hpairs, List.length_cons, ← hf.2.1]
      exact hmod
    · show ∀ p ∈ (putNext h.db.bucket l).pairs, ∃ i, 1 ≤ i ∧
        i ≤ (putNext h.db.bucket l).sequence ∧ p.1 = FormatUint i 36
      have hs : (putNext h.db.bucket l).sequence = h.db.bucket.sequence + 1 := hmod
      rw [hpairs, hs]
      intro p hp
      rcases List.mem_cons.mp hp with rfl | hp
      · refine ⟨h.db.bucket.sequence + 1, by omega, le_refl _, ?_⟩
        show nextKey h.db.bucket = _
        unfold nextKey
        rw [hmod]
      · obtain ⟨i, h1, h2, h3⟩ := hf.2.2.1 p hp
        exact ⟨i, h1, by omega, h3⟩
  · rw [(Shorten_fail h l hc).2.2]
    exact hf

theorem mem_keys_of_lookup (k v : GoString) : ∀ ps : List (GoString × GoString),
    ps.lookup k = some v → ∃ p ∈ ps, p.1 = k := by
  intro ps
  induction ps with
  | nil => intro hl; simp [List.lookup] at hl
  | cons p ps ih =>
    intro hl
    obtain ⟨pk, pv⟩ := p
    by_cases hkp : k = pk
    · exact ⟨(pk, pv), List.mem_cons_self _ _, hkp.symm⟩
    · have hkp' : (k == pk) = false := by simpa using hkp
      simp only [List.lookup, hkp'] at hl
      obtain ⟨q, hq, hqk⟩ := ih hl
      exact ⟨q, List.mem_cons_of_mem _ hq, hqk⟩

theorem Get_Shorten_of_FromFresh (h : Handler) (l k v : GoString) (hf : FromFresh h)
    (hg : h.db.bucket.Get k = some v) : (h.Shorten l).2.db.bucket.Get k = some v := by
  by_cases hc : canShorten h l
  · rw [Shorten_ok h l hc]
    show (putNext h.db.bucket l).Get k = some v
    obtain ⟨p, hp, hpk⟩ := mem_keys_of_lookup k v _ hg
    have hne : k ≠ nextKey h.db.bucket := hpk ▸ (FromFresh_nextKey h hf).2 p hp
    rw [Get_putNext_ne _ _ _ hne]
    exact hg
  · rw [(Shorten_fail h l hc).2.2]
    exact hg

theorem Shorten_shortBase (h : Handler) (l : GoString) :
    (h.Shorten l).2.shortBase = h.shortBase := by
  by_cases hc : canShorten h l
  · rw [Shorten_ok h l hc]
  · rw [(Shorten_fail h l hc).2.2]

theorem afterAll_of_FromFresh (cs : List Call) : ∀ h : Handler, FromFresh h →
    FromFresh (h.afterAll cs) ∧ (h.afterAll cs).shortBase = h.shortBase ∧
      ∀ k v, h.db.bucket.Get k = some v → (h.afterAll cs).db.bucket.Get k = some v := by
  induction cs with
  | nil => intro h hf; exact ⟨hf, rfl, fun _ _ hg => hg⟩
  | cons c cs ih =>
    intro h hf
    cases c with
    | Shorten l =>
      obtain ⟨h1, h2, h3⟩ := ih (h.Shorten l).2 (FromFresh_Shorten h l hf)
      refine ⟨h1, ?_, ?_⟩
      · show ((h.Shorten l).2.afterAll cs).shortBase = _
        rw [h2, Shorten_shortBase]
      · intro k v hg
        exact h3 k v (Get_Shorten_of_FromFresh h l k v hf hg)
    | Expand s => exact ih h hf

/-- C5 (append-only store).  In every state reached from a freshly created
store by `Shorten` and `Expand` calls, a `Shorten` call leaves every existing
record as it is (none is overwritten, none is deleted); so a short URL `S` that
`Shorten` returned for `L` still expands to `L`, with no error, after any
number of later calls. -/
theorem Shorten_append_only (base : GoString) (cs : List Call) :
    (∀ long k v, (Handler.afterAll ⟨base, freshDB⟩ cs).db.bucket.Get k = some v →
        ((Handler.afterAll ⟨base, freshDB⟩ cs).Shorten long).2.db.bucket.Get k = some v) ∧
      (∀ L S h1 later, (Handler.afterAll ⟨base, freshDB⟩ cs).Shorten L = ((S, none), h1) →
        (h1.afterAll later).Expand S = (L, none)) := by
  have hf := (afterAll_of_FromFresh cs ⟨base, freshDB⟩ (FromFresh_fresh base)).1
  refine ⟨fun long k v hg => Get_Shorten_of_FromFresh _ long k v hf hg, ?_⟩
  intro L S h1 later hs
  have hf1 : FromFresh h1 := by
    have := FromFresh_Shorten _ L hf
    rw [hs] at this
    exact this
  have hc : canShorten _ L := (Shorten_succeeds_iff _ L).mp (by rw [hs])
  rw [Shorten_ok _ L hc] at hs
  simp only [Prod.mk.injEq, and_true] at hs
  obtain ⟨hS, hh1⟩ := hs
  obtain ⟨hfl, hbl, hgl⟩ := afterAll_of_FromFresh later h1 hf1
  have hg1 : h1.db.bucket.Get (nextKey (Handler.afterAll ⟨base, freshDB⟩ cs).db.bucket)
      = some L := by
    rw [← hh1]
    exact Get_putNext_self _ _
  have hb1 : h1.shortBase = (Handler.afterAll ⟨base, freshDB⟩ cs).shortBase := by
    rw [← hh1]
  have hpos := nextKey_length_pos (Handler.afterAll ⟨base, freshDB⟩ cs).db.bucket
  rw [← hS, Expand_good_open _ _ _ hfl.1, hbl, hb1, List.drop_left', hgl _ _ hg1]
  · rfl
  · rfl
  · rw [hbl, hb1, not_or, not_not]
    refine ⟨?_, by simp⟩
    rw [List.length_append]
    omega

/-- C5 on a store that started fresh: the short URL `http://te.st/2` returned
for `b` still expands to `b` after two more `Shorten` calls and an `Expand`. -/
theorem Shorten_append_only_witness :
    Handler.Shorten (Handler.afterAll ⟨str "http://te.st/", freshDB⟩ [Call.Shorten (str "a")])
        (str "b")
        = ((str "http://te.st/2", none),
          ⟨str "http://te.st/", ⟨true, ⟨2, [(str "2", str "b"), (str "1", str "a")]⟩⟩⟩) ∧
      Handler.Expand
        (Handler.afterAll
          ⟨str "http://te.st/", ⟨true, ⟨2, [(str "2", str "b"), (str "1", str "a")]⟩⟩⟩
          [Call.Shorten (str "c"), Call.Expand (str "http://te.st/1"), Call.Shorten (str "d")])
        (str "http://te.st/2") = (str "b", none) :=
  ⟨by decide,
    (Shorten_append_only (str "http://te.st/") [Call.Shorten (str "a")]).2 (str "b")
      (str "http://te.st/2") _
      [Call.Shorten (str "c"), Call.Expand (str "http://te.st/1"), Call.Shorten (str "d")]
      (by decide)⟩

/-! ## ShortenerHandler -/

theorem drop_last_eq_iff_suffix (s : GoString) (c : UInt8) :
    s.drop (s.length - 1) = [c] ↔ [c] <:+ s := by
  rw [List.suffix_iff_eq_drop]
  simp only [List.length_singleton]
  exact eq_comm

theorem double_slash_suffix_append (s : GoString) :
    str "//" <:+ s ++ str "/" ↔ str "/" <:+ s := by
  show [47, 47] <:+ s ++ [47] ↔ [47] <:+ s
  constructor
  · rintro ⟨t, ht⟩
    have : (t ++ [47]) ++ [47] = s ++ [47] := by simpa using ht
    exact ⟨t, List.append_cancel_right this⟩
  · rintro ⟨t, ht⟩
    exact ⟨t, by rw [← ht]; simp⟩

theorem slash_suffix_of_double (s : GoString) (h : str "//" <:+ s) : str "/" <:+ s := by
  obtain ⟨t, ht⟩ := h
  exact ⟨t ++ [47], by rw [← ht]; show (t ++ [47]) ++ [47] = t ++ [47, 47]; simp⟩

/-- C6, amended (base normalisation).  For every `shortBase` that
`ShortenerHandler` accepts, the `shortBase` stored in the returned handler is
the given one if that ends in a slash and the given one with one slash appended
otherwise; so it always ends in a slash, and it ends in exactly one trailing
slash unless the given `shortBase` already ended in two. -/
theorem ShortenerHandler_trailing_slash (parseRequestURI : GoString → Option GoString)
    (boltOpen : GoString → Except GoString DB) (shortBase dbfile : GoString) (h : Handler)
    (hok : ShortenerHandler parseRequestURI boltOpen shortBase dbfile = some (.ok h)) :
    h.shortBase = (if str "/" <:+ shortBase then shortBase else shortBase ++ str "/") ∧
      str "/" <:+ h.shortBase ∧
      (endsInOneSlash h.shortBase ↔ ¬ str "//" <:+ shortBase) := by
  unfold ShortenerHandler at hok
  cases hp : parseRequestURI shortBase with
  | some e => rw [hp] at hok; simp at hok
  | none =>
    rw [hp] at hok
    simp only at hok
    by_cases hlen : shortBase.length = 0
    · rw [if_pos hlen] at hok; exact absurd hok (by simp)
    · rw [if_neg hlen] at hok
      cases hdb : initDB boltOpen dbfile shortenerBucket with
      | error e => rw [hdb] at hok; simp at hok
      | ok db =>
        rw [hdb] at hok
        simp only [Option.some.injEq, Except.ok.injEq] at hok
        have hbase : h.shortBase = (if shortBase.drop (shortBase.length - 1) ≠ str "/"
            then shortBase ++ str "/" else shortBase) := by rw [← hok]
        have hiff := drop_last_eq_iff_suffix shortBase 47
        by_cases hsl : str "/" <:+ shortBase
        · have hd : ¬ shortBase.drop (shortBase.length - 1) ≠ str "/" :=
            not_not.mpr (hiff.mpr hsl)
          rw [if_neg hd] at hbase
          rw [if_pos hsl, hbase]
          exact ⟨rfl, hsl, by unfold endsInOneSlash; tauto⟩
        · have hd : shortBase.drop (shortBase.length - 1) ≠ str "/" :=
            fun he => hsl (hiff.mp he)
          rw [if_pos hd] at hbase
          rw [if_neg hsl, hbase]
          refine ⟨rfl, ⟨shortBase, rfl⟩, ?_⟩
          unfold endsInOneSlash
          rw [double_slash_suffix_append]
          have := slash_suffix_of_double shortBase
          have hsuf : str "/" <:+ shortBase ++ str "/" := ⟨shortBase, rfl⟩
          tauto

/-- C6, amended, at the base of the example servers, `http://lu.sh`: it is
stored as `http://lu.sh/`, which ends in exactly one slash. -/
theorem ShortenerHandler_trailing_slash_witness :
    ShortenerHandler (fun _ => none) (fun _ => .ok freshDB) (str "http://lu.sh") (str "short.db")
        = some (.ok ⟨str "http://lu.sh/", freshDB⟩) ∧
      endsInOneSlash (str "http://lu.sh/") :=
  ⟨rfl,
    (ShortenerHandler_trailing_slash (fun _ => none) (fun _ => .ok freshDB) (str "http://lu.sh")
      (str "short.db") ⟨str "http://lu.sh/", freshDB⟩ rfl).2.2.mpr (by decide)⟩

/-- C6 fails as stated: the base `http://te.st//`, which `url.ParseRequestURI`
accepts, is stored as it is, and it ends in two trailing slashes, not in
exactly one. -/
theorem ShortenerHandler_double_slash_counterexample :
    ShortenerHandler (fun s => if s = str "http://te.st//" then none else some (str "invalid"))
        (fun _ => .ok freshDB) (str "http://te.st//") (str "short.db")
        = some (.ok ⟨str "http://te.st//", freshDB⟩) ∧
      ¬ endsInOneSlash (str "http://te.st//") :=
  ⟨rfl, by decide⟩

/-! ## ServeHTTP -/

theorem ServeHTTP_post (urlParse : GoString → Except GoString GoString) (h : Handler)
    (r : Request) (hm : r.Method = MethodPost) :
    h.ServeHTTP urlParse r =
      match r.Body with
      | (_, some e) => (.Error e 500, h)
      | (raw, none) =>
        match urlParse raw with
        | .error e => (.Error e 400, h)
        | .ok longu =>
          match h.Shorten longu with
          | ((_, some e), h1) => (.Error e 500, h1)
          | ((short, none), h1) => (.WriteString short, h1) := by
  have h1 : ¬ (r.Method = MethodGet ∨ r.Method = MethodHead) := by
    rw [hm]; decide
  unfold Handler.ServeHTTP
  rw [if_neg h1, if_pos hm]

theorem ServeHTTP_get (urlParse : GoString → Except GoString GoString) (h : Handler)
    (r : Request) (hm : r.Method = MethodGet ∨ r.Method = MethodHead) :
    h.ServeHTTP urlParse r =
      match h.Expand r.short with
      | (_, some e) =>
        if Contains e (str "Bad short URL") then (.Error e 400, h)
        else (.Error e 500, h)
      | (long, none) =>
        if long.length < 1 then (.NotFound, h)
        else (.Redirect long 303, h) := by
  unfold Handler.ServeHTTP
  rw [if_pos hm]

/-- C9 (a rejected POST is atomic).  For every POST whose body fails URL
parsing, `ServeHTTP` responds 400 and leaves the store as it was: no sequence
number is consumed and no record is written, so the next `Shorten` returns
what it would have returned without that request. -/
theorem ServeHTTP_rejected_POST_atomic (urlParse : GoString → Except GoString GoString)
    (h : Handler) (r : Request) (body e : GoString) (hm : r.Method = MethodPost)
    (hb : r.Body = (body, none)) (hp : urlParse body = .error e) :
    (h.ServeHTTP urlParse r).1.StatusCode = 400 ∧
      (h.ServeHTTP urlParse r).2 = h ∧
      ∀ long, (h.ServeHTTP urlParse r).2.Shorten long = h.Shorten long := by
  have hr : h.ServeHTTP urlParse r = (.Error e 400, h) := by
    rw [ServeHTTP_post urlParse h r hm, hb]
    simp only [hp]
  rw [hr]
  exact ⟨rfl, rfl, fun _ => rfl⟩

/-- C9 at the rejected body of the tests: the answer is 400 and the handler is
the one before the request. -/
theorem ServeHTTP_rejected_POST_atomic_witness :
    (Handler.ServeHTTP
        (fun raw => if raw = str "$this[shouldn't%%%%work.com/wow"
          then .error (str "invalid URL escape") else .ok raw)
        ⟨str "http://te.st/", ⟨true, ⟨2, [(str "2", str "b"), (str "1", str "a")]⟩⟩⟩
        ⟨MethodPost, [], (str "$this[shouldn't%%%%work.com/wow", none)⟩).1.StatusCode = 400 ∧
      (Handler.ServeHTTP
        (fun raw => if raw = str "$this[shouldn't%%%%work.com/wow"
          then .error (str "invalid URL escape") else .ok raw)
        ⟨str "http://te.st/", ⟨true, ⟨2, [(str "2", str "b"), (str "1", str "a")]⟩⟩⟩
        ⟨MethodPost, [], (str "$this[shouldn't%%%%work.com/wow", none)⟩).2
        = ⟨str "http://te.st/", ⟨true, ⟨2, [(str "2", str "b"), (str "1", str "a")]⟩⟩⟩ :=
  ⟨(ServeHTTP_rejected_POST_atomic _ _ _ (str "$this[shouldn't%%%%work.com/wow")
      (str "invalid URL escape") rfl rfl rfl).1,
    (ServeHTTP_rejected_POST_atomic _ _ _ (str "$this[shouldn't%%%%work.com/wow")
      (str "invalid URL escape") rfl rfl rfl).2.1⟩

theorem hexEscapeNonASCII_ascii (s : GoString) (hs : ∀ c ∈ s, c < 128) :
    hexEscapeNonASCII s = s := by
  induction s with
  | nil => rfl
  | cons c s ih =>
    have hc : ¬ c ≥ 128 := by
      intro hge
      have h1 : c.toNat < (128 : UInt8).toNat := hs c (List.mem_cons_self _ _)
      have h2 : (128 : UInt8).toNat ≤ c.toNat := hge
      omega
    unfold hexEscapeNonASCII
    rw [if_neg hc, ih (fun x hx => hs x (List.mem_cons_of_mem _ hx))]

/-- C7, amended (end to end).  For every POST body that parses as a URL with a
non-empty canonical string form `L`, when `Shorten` succeeds on the store,
`ServeHTTP` responds 200 with body equal to the new short URL `S`, and a
subsequent GET with query `short=S` responds 303 by `http.Redirect` to `L`; the
`Location` header is equal to `L` when `L` is not relative (it has a scheme or
a host) and all its bytes are ASCII. -/
theorem ServeHTTP_end_to_end (urlParse : GoString → Except GoString GoString)
    (relative : GoString → Bool) (pathClean : GoString → GoString) (oldpath : GoString)
    (h h1 : Handler) (r : Request) (body L S : GoString) (hm : r.Method = MethodPost)
    (hb : r.Body = (body, none)) (hp : urlParse body = .ok L) (hne : L ≠ [])
    (hs : h.Shorten L = ((S, none), h1)) :
    h.ServeHTTP urlParse r = (.WriteString S, h1) ∧
      (h.ServeHTTP urlParse r).1.StatusCode = 200 ∧
      ∀ g : Request, g.Method = MethodGet → g.short = S →
        h1.ServeHTTP urlParse g = (.Redirect L 303, h1) ∧
          (h1.ServeHTTP urlParse g).1.StatusCode = 303 ∧
          (relative L = false → (∀ c ∈ L, c < 128) →
            (h1.ServeHTTP urlParse g).1.Location relative pathClean oldpath = some L) := by
  have hr : h.ServeHTTP urlParse r = (.WriteString S, h1) := by
    rw [ServeHTTP_post urlParse h r hm, hb]
    simp only [hp, hs]
  have hg : ∀ g : Request, g.Method = MethodGet → g.short = S →
      h1.ServeHTTP urlParse g = (.Redirect L 303, h1) := by
    intro g hgm hgs
    rw [ServeHTTP_get urlParse h1 g (Or.inl hgm), hgs, Expand_after_Shorten h h1 L S hs]
    have hlen : ¬ L.length < 1 := by
      have := List.length_pos.mpr hne
      omega
    simp only [hlen, if_false]
  refine ⟨hr, by rw [hr]; rfl, fun g hgm hgs => ?_⟩
  rw [hg g hgm hgs]
  refine ⟨rfl, rfl, fun hrel hascii => ?_⟩
  show some (hexEscapeNonASCII (redirectURL relative pathClean oldpath L)) = some L
  unfold redirectURL
  rw [hrel, if_neg (by simp), hexEscapeNonASCII_ascii L hascii]

/-- C7, amended, at the first test case: POST of `http://testlong.com/x` on a
fresh store answers with `http://te.st/1`, and the GET of that short URL
answers 303 with the `Location` header `http://testlong.com/x`. -/
theorem ServeHTTP_end_to_end_witness :
    Handler.Shorten ⟨str "http://te.st/", freshDB⟩ (str "http://testlong.com/x")
        = ((str "http://te.st/1", none),
          ⟨str "http://te.st/", ⟨true, ⟨1, [(str "1", str "http://testlong.com/x")]⟩⟩⟩) ∧
      (∀ c ∈ str "http://testlong.com/x", c < 128) ∧
      Handler.ServeHTTP (fun raw => .ok raw) ⟨str "http://te.st/", freshDB⟩
          ⟨MethodPost, [], (str "http://testlong.com/x", none)⟩
        = (.WriteString (str "http://te.st/1"),
          ⟨str "http://te.st/", ⟨true, ⟨1, [(str "1", str "http://testlong.com/x")]⟩⟩⟩) ∧
      (Handler.ServeHTTP (fun raw => .ok raw)
          ⟨str "http://te.st/", ⟨true, ⟨1, [(str "1", str "http://testlong.com/x")]⟩⟩⟩
          ⟨MethodGet, str "http://te.st/1", ([], none)⟩).1.StatusCode = 303 ∧
      (Handler.ServeHTTP (fun raw => .ok raw)
          ⟨str "http://te.st/", ⟨true, ⟨1, [(str "1", str "http://testlong.com/x")]⟩⟩⟩
          ⟨MethodGet, str "http://te.st/1", ([], none)⟩).1.Location
            (fun _ => false) (fun p => p) []
        = some (str "http://testlong.com/x") :=
  ⟨by decide, by decide,
    (ServeHTTP_end_to_end (fun raw => .ok raw) (fun _ => false) (fun p => p) []
      ⟨str "http://te.st/", freshDB⟩ _
      ⟨MethodPost, [], (str "http://testlong.com/x", none)⟩ (str "http://testlong.com/x")
      (str "http://testlong.com/x") (str "http://te.st/1") rfl rfl rfl (by decide)
      (by decide)).1,
    ((ServeHTTP_end_to_end (fun raw => .ok raw) (fun _ => false) (fun p => p) []
      ⟨str "http://te.st/", freshDB⟩ _
      ⟨MethodPost, [], (str "http://testlong.com/x", none)⟩ (str "http://testlong.com/x")
      (str "http://testlong.com/x") (str "http://te.st/1") rfl rfl rfl (by decide)
      (by decide)).2.2 ⟨MethodGet, str "http://te.st/1", ([], none)⟩ rfl rfl).2.1,
    ((ServeHTTP_end_to_end (fun raw => .ok raw) (fun _ => false) (fun p => p) []
      ⟨str "http://te.st/", freshDB⟩ _
      ⟨MethodPost, [], (str "http://testlong.com/x", none)⟩ (str "http://testlong.com/x")
      (str "http://testlong.com/x") (str "http://te.st/1") rfl rfl rfl (by decide)
      (by decide)).2.2 ⟨MethodGet, str "http://te.st/1", ([], none)⟩ rfl rfl).2.2
      rfl (by decide)⟩

/-- C7 fails as stated, in four ways.  (1) The empty POST body parses
(`url.Parse("")` gives the empty URL, whose string form is empty): `ServeHTTP`
responds 200 with the short URL `http://te.st/1`, and the subsequent GET with
`short=http://te.st/1` responds 404, not 303.  (2) On a store that has been
closed a POST whose body parses is answered 500, not 200.  (3) The body `a`
parses as a relative URL with string form `a`: the GET of its short URL
responds 303 with the `Location` header `/a` (the request path is empty, and
`path.Clean("/a")` is `/a`), not `a`.  (4) The body `http://a/?q=é` parses with
its own text as string form, and the `Location` header of the GET is
`http://a/?q=%c3%a9`: the bytes that are not ASCII are escaped. -/
theorem ServeHTTP_end_to_end_counterexample :
    (Handler.ServeHTTP (fun raw => if raw = [] then .ok [] else .error (str "not modelled"))
        ⟨str "http://te.st/", freshDB⟩ ⟨MethodPost, [], ([], none)⟩
        = (.WriteString (str "http://te.st/1"),
          ⟨str "http://te.st/", ⟨true, ⟨1, [(str "1", [])]⟩⟩⟩) ∧
      Handler.ServeHTTP (fun raw => if raw = [] then .ok [] else .error (str "not modelled"))
        ⟨str "http://te.st/", ⟨true, ⟨1, [(str "1", [])]⟩⟩⟩
        ⟨MethodGet, str "http://te.st/1", ([], none)⟩
        = (.NotFound, ⟨str "http://te.st/", ⟨true, ⟨1, [(str "1", [])]⟩⟩⟩)) ∧
      (Handler.ServeHTTP
        (fun raw => if raw = str "http://testlong.com/x" then .ok raw
          else .error (str "not modelled"))
        (Handler.Close ⟨str "http://te.st/", freshDB⟩)
        ⟨MethodPost, [], (str "http://testlong.com/x", none)⟩).1.StatusCode = 500 ∧
      (Handler.ServeHTTP (fun raw => if raw = str "a" then .ok raw else .error (str "not modelled"))
        ⟨str "http://te.st/", freshDB⟩ ⟨MethodPost, [], (str "a", none)⟩
        = (.WriteString (str "http://te.st/1"),
          ⟨str "http://te.st/", ⟨true, ⟨1, [(str "1", str "a")]⟩⟩⟩) ∧
      (Handler.ServeHTTP (fun raw => if raw = str "a" then .ok raw else .error (str "not modelled"))
        ⟨str "http://te.st/", ⟨true, ⟨1, [(str "1", str "a")]⟩⟩⟩
        ⟨MethodGet, str "http://te.st/1", ([], none)⟩).1.Location
          (fun u => decide (u = str "a")) (fun p => p) []
        = some (str "/a")) ∧
      (Handler.ServeHTTP
        (fun raw => if raw = str "http://a/?q=é" then .ok raw else .error (str "not modelled"))
        ⟨str "http://te.st/", freshDB⟩ ⟨MethodPost, [], (str "http://a/?q=é", none)⟩
        = (.WriteString (str "http://te.st/1"),
          ⟨str "http://te.st/", ⟨true, ⟨1, [(str "1", str "http://a/?q=é")]⟩⟩⟩) ∧
      (Handler.ServeHTTP
        (fun raw => if raw = str "http://a/?q=é" then .ok raw else .error (str "not modelled"))
        ⟨str "http://te.st/", ⟨true, ⟨1, [(str "1", str "http://a/?q=é")]⟩⟩⟩
        ⟨MethodGet, str "http://te.st/1", ([], none)⟩).1.Location
          (fun _ => false) (fun p => p) []
        = some (str "http://a/?q=%c3%a9")) := by
  decide

theorem Contains_append_left (sub rest : GoString) : Contains (sub ++ rest) sub = true := by
  unfold Contains
  rw [List.any_eq_true]
  refine ⟨sub ++ rest, ?_, by simp⟩
  cases hs : sub ++ rest with
  | nil => simp
  | cons a l => simp

theorem Contains_errBadShortURL (h : Handler) (short : GoString) :
    Contains (errBadShortURL h short) (str "Bad short URL") = true := by
  have : errBadShortURL h short = str "Bad short URL" ++
      (str ", " ++ short ++ str " (base=" ++ h.shortBase ++ str ")") := by
    unfold errBadShortURL
    have hsplit : str "Bad short URL, " = str "Bad short URL" ++ str ", " := by decide
    rw [hsplit]
    simp only [List.append_assoc]
  rw [this]
  exact Contains_append_left _ _

/-- What `ServeHTTP` answers to a GET or HEAD request: 400 for the "Bad short
URL" error of `Expand`; for another error of `Expand`, 500 when its text does
not contain "Bad short URL"; 404 when `Expand` succeeds with an empty long URL;
303 with the long URL as redirect target otherwise.  The store is never
changed. -/
theorem ServeHTTP_expand_status (urlParse : GoString → Except GoString GoString)
    (h : Handler) (r : Request) (hm : r.Method = MethodGet ∨ r.Method = MethodHead) :
    (h.ServeHTTP urlParse r).2 = h ∧
      ((h.Expand r.short).2 = some (errBadShortURL h r.short) →
        (h.ServeHTTP urlParse r).1 = .Error (errBadShortURL h r.short) 400) ∧
      (∀ e, (h.Expand r.short).2 = some e → Contains e (str "Bad short URL") = false →
        (h.ServeHTTP urlParse r).1 = .Error e 500) ∧
      ((h.Expand r.short).2 = none → (h.Expand r.short).1 = [] →
        (h.ServeHTTP urlParse r).1 = .NotFound) ∧
      ((h.Expand r.short).2 = none → (h.Expand r.short).1 ≠ [] →
        (h.ServeHTTP urlParse r).1 = .Redirect (h.Expand r.short).1 303) := by
  rw [ServeHTTP_get urlParse h r hm]
  rcases hx : h.Expand r.short with ⟨long, err⟩
  cases err with
  | some e =>
    simp only
    refine ⟨by split <;> rfl, ?_, ?_, by simp, by simp⟩
    · intro he
      have he' : e = errBadShortURL h r.short := Option.some.inj he
      rw [he', Contains_errBadShortURL, if_pos rfl]
    · intro e' he' hc
      have : e = e' := Option.some.inj he'
      subst this
      rw [hc]
      simp
  | none =>
    simp only
    refine ⟨by split <;> rfl, by simp, by simp, ?_, ?_⟩
    · intro _ hl
      rw [hl]
      rfl
    · intro _ hl
      have : ¬ long.length < 1 := by
        have := List.length_pos.mpr hl
        omega
      rw [if_neg this]

/-- C8 at its failing input.  On a store that has been closed, for the short
URL `http://te.st/Bad short URL`, `Expand` fails with the store error (not with
the "Bad short URL" error), and `ServeHTTP` answers the GET with 400 all the
same, because the text of the store error quotes the short URL. -/
theorem ServeHTTP_store_error_as_400 :
    Handler.Expand (Handler.Close ⟨str "http://te.st/", freshDB⟩)
        (str "http://te.st/Bad short URL")
        = ([], some (str
          "db error, Expand from http://te.st/Bad short URL: database not open")) ∧
      str "db error, Expand from http://te.st/Bad short URL: database not open"
        ≠ errBadShortURL ⟨str "http://te.st/", freshDB⟩ (str "http://te.st/Bad short URL") ∧
      (Handler.ServeHTTP (fun raw => .ok raw) (Handler.Close ⟨str "http://te.st/", freshDB⟩)
        ⟨MethodGet, str "http://te.st/Bad short URL", ([], none)⟩).1.StatusCode = 400 := by
  decide

/-! ## The cases of `short_test.go` -/

set_option maxRecDepth 8000 in
/-- `TestHandler_Shorten`: on a fresh store "Good 1" gets `http://te.st/1` and
"Good 2" gets `http://te.st/2`, with no error. -/
theorem test_Handler_Shorten :
    (shortenAll ⟨str "http://te.st/", freshDB⟩
        [str "http://testlong.com/x",
          str ("https://www.google.com/maps/place/Lush+Studio+Soho/@51.5127403,-0.1367994,20z/"
            ++ "data=!4m5!3m4!1s0x487604d4f30976bb:0xaac8a5e5c74c71fe!8m2!3d51.5127963!"
            ++ "4d-0.1367095")]).1
      = [(str "http://te.st/1", none), (str "http://te.st/2", none)] := by
  decide

/-- `TestHandler_Expand`: the two good cases, the unknown key, and the two
rejected short URLs. -/
theorem test_Handler_Expand :
    Handler.Expand ⟨str "http://te.st/", ⟨true, ⟨2, [(str "2", str "b"), (str "1", str "a")]⟩⟩⟩
        (str "http://te.st/1") = (str "a", none) ∧
      Handler.Expand ⟨str "http://te.st/", ⟨true, ⟨2, [(str "2", str "b"), (str "1", str "a")]⟩⟩⟩
        (str "http://te.st/2") = (str "b", none) ∧
      Handler.Expand ⟨str "http://te.st/", ⟨true, ⟨2, [(str "2", str "b"), (str "1", str "a")]⟩⟩⟩
        (str "http://te.st/1h1gtj") = ([], none) ∧
      Handler.Expand ⟨str "http://te.st/", ⟨true, ⟨2, [(str "2", str "b"), (str "1", str "a")]⟩⟩⟩
        (str "http://d") = ([], some (str "Bad short URL, http://d (base=http://te.st/)")) ∧
      Handler.Expand ⟨str "http://te.st/", ⟨true, ⟨2, [(str "2", str "b"), (str "1", str "a")]⟩⟩⟩
        (str "http://wo.mp/2")
        = ([], some (str "Bad short URL, http://wo.mp/2 (base=http://te.st/)")) := by
  decide

/-- `TestHandler_ServeHTTP`, the expand loop: 303 for a known key, 404 for an
unknown one, 400 for the rejected short URLs; and 405 for another method. -/
theorem test_Handler_ServeHTTP :
    (Handler.ServeHTTP (fun raw => .ok raw)
        ⟨str "http://te.st/", ⟨true, ⟨2, [(str "2", str "b"), (str "1", str "a")]⟩⟩⟩
        ⟨str "GET", str "http://te.st/1", ([], none)⟩).1 = .Redirect (str "a") 303 ∧
      (Handler.ServeHTTP (fun raw => .ok raw)
        ⟨str "http://te.st/", ⟨true, ⟨2, [(str "2", str "b"), (str "1", str "a")]⟩⟩⟩
        ⟨str "GET", str "http://te.st/1h1gtj", ([], none)⟩).1.StatusCode = 404 ∧
      (Handler.ServeHTTP (fun raw => .ok raw)
        ⟨str "http://te.st/", ⟨true, ⟨2, [(str "2", str "b"), (str "1", str "a")]⟩⟩⟩
        ⟨str "GET", str "http://d", ([], none)⟩).1.StatusCode = 400 ∧
      (Handler.ServeHTTP (fun raw => .ok raw)
        ⟨str "http://te.st/", ⟨true, ⟨2, [(str "2", str "b"), (str "1", str "a")]⟩⟩⟩
        ⟨str "GET", str "http://wo.mp/2", ([], none)⟩).1.StatusCode = 400 ∧
      (Handler.ServeHTTP (fun raw => .ok raw)
        ⟨str "http://te.st/", ⟨true, ⟨2, [(str "2", str "b"), (str "1", str "a")]⟩⟩⟩
        ⟨str "PUT", [], ([], none)⟩).1 = .Error (str "Method Not Allowed") 405 := by
  decide

end Short
